import Mathlib

/-!
Verification of the `manage-packages` registry-maintenance engine
(`src/util.ts` / `src/octo.ts` / `src/registry.ts` / `src/cmd_parser.ts`).

JavaScript `Map` objects are modelled as insertion-ordered association
lists (`AList`), matching the iteration order the source relies on.
JavaScript `undefined` digest values (a manifest entry lacking a `digest`
field) are modelled as `Option String` with `none` for `undefined`.
The single-threaded event loop is modelled by running scheduled fetch
tasks sequentially in submission order after the enumeration loop; queued
tasks are dropped once the abort signal fires (`limit.clearQueue()`).
-/

set_option autoImplicit false

namespace ManagePackages

universe u v

/-- Insertion-ordered association list, modelling a JavaScript `Map`. -/
abbrev AList (K : Type u) (V : Type v) := List (K × V)

/-- `Map.prototype.get`: first (unique) binding of the key, if any. -/
def alGet {K : Type u} {V : Type v} [DecidableEq K] : AList K V → K → Option V
  | [], _ => none
  | (k1, v1) :: rest, k => if k1 = k then some v1 else alGet rest k

/-- `Map.prototype.set`: update in place an existing key (keeping its
position), otherwise append the new binding at the end. -/
def alSet {K : Type u} {V : Type v} [DecidableEq K] : AList K V → K → V → AList K V
  | [], k, v => [(k, v)]
  | (k1, v1) :: rest, k, v =>
    if k1 = k then (k1, v) :: rest else (k1, v1) :: alSet rest k v

/-- Read-modify-write through a `DefaultValueMap`: fetch the value of `k`
(inserting `dflt` if absent, as `DefaultValueMap.get` does) and store
`f` applied to it.  This models `const info = map.get(k); info.x = ...;`
where the fetched object is mutated in place. -/
def alUpd {K : Type u} {V : Type v} [DecidableEq K]
    (m : AList K V) (k : K) (dflt : V) (f : V → V) : AList K V :=
  match alGet m k with
  | some v => alSet m k (f v)
  | none => alSet m k (f dflt)

theorem alGet_alSet_self {K : Type u} {V : Type v} [DecidableEq K]
    (m : AList K V) (k : K) (v : V) : alGet (alSet m k v) k = some v := by
  induction m with
  | nil => simp [alGet, alSet]
  | cons kv rest ih =>
    obtain ⟨k1, v1⟩ := kv
    by_cases h : k1 = k
    · simp [alGet, alSet, h]
    · simp [alGet, alSet, h, ih]

theorem alGet_alSet_ne {K : Type u} {V : Type v} [DecidableEq K]
    (m : AList K V) (k k9 : K) (v : V) (h : k ≠ k9) :
    alGet (alSet m k v) k9 = alGet m k9 := by
  induction m with
  | nil => simp [alGet, alSet, h]
  | cons kv rest ih =>
    obtain ⟨k1, v1⟩ := kv
    by_cases h1 : k1 = k
    · subst h1
      simp [alGet, alSet, h]
    · simp [alGet, alSet, h1, ih]

theorem alGet_alUpd_self {K : Type u} {V : Type v} [DecidableEq K]
    (m : AList K V) (k : K) (dflt : V) (f : V → V) :
    alGet (alUpd m k dflt f) k = some (f ((alGet m k).getD dflt)) := by
  unfold alUpd
  cases h : alGet m k <;> simp [h, alGet_alSet_self]

theorem alGet_alUpd_ne {K : Type u} {V : Type v} [DecidableEq K]
    (m : AList K V) (k k9 : K) (dflt : V) (f : V → V) (h : k ≠ k9) :
    alGet (alUpd m k dflt f) k9 = alGet m k9 := by
  unfold alUpd
  cases alGet m k <;> simp [alGet_alSet_ne _ _ _ _ h]

/-- Every value of `alSet m k v` is either `v` or a value of `m`. -/
theorem alSet_values {K : Type u} {V : Type v} [DecidableEq K]
    (P : V → Prop) (m : AList K V) (k : K) (v : V)
    (hm : ∀ kv ∈ m, P kv.2) (hv : P v) : ∀ kv ∈ alSet m k v, P kv.2 := by
  induction m with
  | nil =>
    intro kv hkv
    simp [alSet] at hkv
    simp [hkv, hv]
  | cons kv1 rest ih =>
    obtain ⟨k1, v1⟩ := kv1
    intro kv hkv
    by_cases h : k1 = k
    · simp [alSet, h] at hkv
      rcases hkv with h1 | h1
      · simp [h1, hv]
      · exact hm kv (List.mem_cons_of_mem _ h1)
    · simp only [alSet, if_neg h, List.mem_cons] at hkv
      rcases hkv with h1 | h1
      · exact hm kv (h1 ▸ List.mem_cons_self _ _)
      · exact ih (fun kv2 h2 => hm kv2 (List.mem_cons_of_mem _ h2)) kv h1

theorem alUpd_values {K : Type u} {V : Type v} [DecidableEq K]
    (P : V → Prop) (m : AList K V) (k : K) (dflt : V) (f : V → V)
    (hm : ∀ kv ∈ m, P kv.2) (hd : P dflt) (hf : ∀ v, P v → P (f v)) :
    ∀ kv ∈ alUpd m k dflt f, P kv.2 := by
  unfold alUpd
  cases h : alGet m k with
  | none => exact alSet_values P m k (f dflt) hm (hf _ hd)
  | some v =>
    have hv : P v := by
      clear hd
      induction m with
      | nil => simp [alGet] at h
      | cons kv1 rest ih =>
        obtain ⟨k1, v1⟩ := kv1
        by_cases h1 : k1 = k
        · simp [alGet, h1] at h
          exact h ▸ hm (k1, v1) (List.mem_cons_self _ _)
        · simp [alGet, h1] at h
          exact ih (fun kv2 h2 => hm kv2 (List.mem_cons_of_mem _ h2)) h
    exact alSet_values P m k (f v) hm (hf _ hv)

/-! ## Data model (`octo.ts`) -/

/-- A GitHub package-version record as consumed from the ledger
(`PackageVersion`): numeric `id`, `name` holding the image digest,
and the `metadata.container.tags` list. -/
structure PkgRecord where
  id : Nat
  name : String
  tags : List String
  deriving DecidableEq, Repr

/-- Reconciliation state for one digest (`interface PkgInfo`). -/
structure PkgInfo where
  id : Option Nat := none
  isOrphan : Bool := true
  belongsToTagsToDelete : Bool := false
  indexDigest : String := ""
  tags : List String := []
  deriving DecidableEq, Repr

/-- The literal default produced by the `DefaultValueMap` callback in
`findOrphanOrTaggedPackageVersions`. -/
def defaultPkgInfo : PkgInfo :=
  { id := none, isOrphan := true, belongsToTagsToDelete := false,
    indexDigest := "", tags := [] }

/-- Fatal error conditions funnelled through `controller.abort` / `throw`. -/
inductive Err where
  /-- `Unexpected falsy name (digest) property` for a package version. -/
  | falsyDigest (id : Nat)
  /-- `getImageIndex` threw (not-found or other registry error). -/
  | registryFailure (tag : String)
  /-- `Empty manifest list for tag ...`. -/
  | emptyManifest (tag : String)
  /-- `Inconsistent application state: ... marked orphan but ...`. -/
  | inconsistentOrphan (digest : Option String)
  /-- `No tag given for deletion, but found ... digests belonging to such tag`. -/
  | noTagButTargets (count : Nat)
  /-- The octokit deletion API call rejected. -/
  | apiFailure (digest : Option String)
  deriving DecidableEq, Repr

/-- Observable events of a run: the self-consistency stats report
(`logRegistryStats`), a deletion API call
(`octokit.rest.packages.deletePackageVersionForAuthenticatedUser`),
and a printed tag group (list mode). -/
inductive Ev where
  | stats
  | delAttempt (digest : Option String)
  | printGroup (headTag : String)
  deriving DecidableEq, Repr

/-- `controller.abort(err)`: an `AbortController` retains the first reason;
later aborts are no-ops. -/
def abSet (ab : Option Err) (e : Err) : Option Err :=
  match ab with
  | some e0 => some e0
  | none => some e

/-- Registry oracle: outcome of `getImageIndex` for a given reference tag.
`Except.error` models a thrown error; the payload is the `digest` field of
each entry of the fetched index (`none` when the field is missing). -/
def Reg := String → Except Unit (List (Option String))

/-- `getDigestsFromManifestIndex` with `abort: true` (as called from both
reconciliation paths): a thrown fetch error or an empty digest list calls
`controller.abort(err)` and yields the empty list; otherwise the digests
are returned unchanged (entries with a missing digest field included). -/
def getDigestsAbort (reg : Reg) (tag : String) (ab : Option Err) :
    Option Err × List (Option String) :=
  match reg tag with
  | .error _ => (abSet ab (Err.registryFailure tag), [])
  | .ok ds =>
    if ds = [] then (abSet ab (Err.emptyManifest tag), []) else (ab, ds)

/-- The constituent-digest list a resolved fetch uses to update dependent
nodes in the list path (`getPackageVersionsByImageTag`): the code runs
`digests.push(pkg.name)`, appending the index's own digest. -/
def listUpdateList (fetched : List (Option String)) (own : String) :
    List (Option String) :=
  fetched ++ [some own]

/-- The constituent-digest list a resolved fetch uses to update dependent
nodes in the delete/report path (`findOrphanOrTaggedPackageVersions`):
the fetched digests are used unchanged — no self-append. -/
def deleteUpdateList (fetched : List (Option String)) (_own : String) :
    List (Option String) :=
  fetched

/-! ## Delete/report path (`findOrphanOrTaggedPackageVersions`) -/

/-- A fetch task pushed onto the `pLimit(5)` scheduler: the image index's
own digest, the head tag used as fetch reference, and the captured
`belongsToTagsToBeDeleted` flag. -/
structure TaskData where
  pkgDigest : String
  headTag : String
  belongs : Bool
  deriving DecidableEq, Repr

/-- State built while enumerating ledger records in the delete/report
path: the digest graph, the submitted fetch tasks in submission order,
and the abort signal. -/
structure DState where
  map : AList (Option String) PkgInfo
  tasks : List TaskData
  ab : Option Err
  deriving Repr

def initDState : DState := ⟨[], [], none⟩

/-- The enumeration callback of `findOrphanOrTaggedPackageVersions` for a
single record: set `id`; for an index record (non-empty filtered tags)
also set `indexDigest` to its own digest, its tags, `isOrphan = false`,
intersect with the deletion tags, and submit a fetch task keyed by the
first filtered tag. -/
def processDeleteRecord (tagsToDelete : List String) (r : PkgRecord)
    (st : DState) : DState :=
  match r.tags.filter (fun t => t ≠ "") with
  | [] =>
    { st with
      map := alUpd st.map (some r.name) defaultPkgInfo
        (fun i => { i with id := some r.id }) }
  | t0 :: ts =>
    let belongs := (t0 :: ts).any (fun t => t ∈ tagsToDelete)
    { map := alUpd st.map (some r.name) defaultPkgInfo
        (fun i => { i with id := some r.id, indexDigest := r.name,
                           tags := t0 :: ts, isOrphan := false,
                           belongsToTagsToDelete := belongs }),
      tasks := st.tasks ++ [⟨r.name, t0, belongs⟩],
      ab := st.ab }

/-- The enumeration loop (`forEachPackageVersion` with the delete-path
callback): records are processed in ledger order; the loop breaks when the
abort signal is set; a record with a falsy `name` (digest) aborts and
throws. -/
def enumDelete (tagsToDelete : List String) :
    List PkgRecord → DState → Except Err DState
  | [], st => .ok st
  | r :: rest, st =>
    if st.ab.isSome then .ok st
    else if r.name = "" then .error (Err.falsyDigest r.id)
    else enumDelete tagsToDelete rest (processDeleteRecord tagsToDelete r st)

/-- Apply a resolved fetch's update to the digest graph: for each digest
of the update list, create-or-update its node, overwriting
`belongsToTagsToDelete` with the parent index's flag, clearing `isOrphan`,
and pointing `indexDigest` at the parent index. -/
def deleteTaskUpdate (t : TaskData) (ds : List (Option String))
    (m : AList (Option String) PkgInfo) : AList (Option String) PkgInfo :=
  ds.foldl
    (fun m1 d => alUpd m1 d defaultPkgInfo
      (fun i => { i with belongsToTagsToDelete := t.belongs,
                         isOrphan := false, indexDigest := t.pkgDigest }))
    m

/-- Run the scheduled fetch tasks in submission order.  Once the abort
signal fires, the remaining queued tasks are dropped
(`controller.signal.addEventListener("abort", () => limit.clearQueue())`). -/
def runDeleteTasks (reg : Reg) :
    List TaskData → AList (Option String) PkgInfo → Option Err →
    AList (Option String) PkgInfo × Option Err
  | [], m, ab => (m, ab)
  | t :: ts, m, ab =>
    if ab.isSome then (m, ab)
    else
      runDeleteTasks reg ts
        (deleteTaskUpdate t
          (deleteUpdateList (getDigestsAbort reg t.headTag ab).2 t.pkgDigest) m)
        (getDigestsAbort reg t.headTag ab).1

/-- `findOrphanOrTaggedPackageVersions`: enumerate the ledger, run the
scheduled fetches, then `throwIfAborted`. -/
def findOrphanOrTagged (reg : Reg) (tagsToDelete : List String)
    (records : List PkgRecord) : Except Err (AList (Option String) PkgInfo) :=
  match enumDelete tagsToDelete records initDState with
  | .error e => .error e
  | .ok st =>
    match runDeleteTasks reg st.tasks st.map st.ab with
    | (_, some e) => .error e
    | (m, none) => .ok m

/-- The digest count matching the deletion filter, as computed by
`logRegistryStats`. -/
def targetCount (m : AList (Option String) PkgInfo) : Nat :=
  m.foldl (fun n kv => n + (if kv.2.belongsToTagsToDelete then 1 else 0)) 0

/-- One step of the deletion loop result: increment the deleted count on
success, propagate errors. -/
def incrDeleted : Except Err Nat → Except Err Nat
  | .ok n => .ok (n + 1)
  | .error e => .error e

/-- The deletion loop of `deletePackageVersions`, iterating the digest
graph in insertion order.  An entry marked orphan yet carrying a non-empty
`indexDigest` or `tags` throws a fatal consistency error; an entry without
an `id` is skipped (dangling reference); an eligible entry
(`belongsToTagsToDelete` or orphan with `deleteOrphans`) triggers a
deletion API call whose success is decided by the `delOk` oracle — a
rejected call throws out of the loop. -/
def deleteLoop (delOrph : Bool) (delOk : Option String → Bool) :
    List (Option String × PkgInfo) → List Ev × Except Err Nat
  | [] => ([], .ok 0)
  | (d, i) :: rest =>
    if i.isOrphan = true ∧ (i.indexDigest ≠ "" ∨ i.tags ≠ []) then
      ([], .error (Err.inconsistentOrphan d))
    else
      match i.id with
      | none => deleteLoop delOrph delOk rest
      | some _ =>
        if i.belongsToTagsToDelete = true ∨ (delOrph = true ∧ i.isOrphan = true) then
          if delOk d then
            (Ev.delAttempt d :: (deleteLoop delOrph delOk rest).1,
             incrDeleted (deleteLoop delOrph delOk rest).2)
          else
            ([Ev.delAttempt d], .error (Err.apiFailure d))
        else deleteLoop delOrph delOk rest

/-- `deletePackageVersions`: reconcile the graph, log the registry stats
(the self-consistency report, including the defensive
no-tag-but-targets check), then run the deletion loop. -/
def deletePackageVersionsM (reg : Reg) (records : List PkgRecord)
    (tagsToDelete : List String) (delOrph : Bool)
    (delOk : Option String → Bool) : List Ev × Except Err Nat :=
  match findOrphanOrTagged reg tagsToDelete records with
  | .error e => ([], .error e)
  | .ok m =>
    if tagsToDelete = [] ∧ targetCount m ≠ 0 then
      ([Ev.stats], .error (Err.noTagButTargets (targetCount m)))
    else
      (Ev.stats :: (deleteLoop delOrph delOk m).1, (deleteLoop delOrph delOk m).2)

/-- The `report` subcommand (`runCmd`): `deletePackageVersions` invoked
with an empty tag set and `deleteOrphans = false`. -/
def runReportCmd (reg : Reg) (records : List PkgRecord)
    (delOk : Option String → Bool) : List Ev × Except Err Nat :=
  deletePackageVersionsM reg records [] false delOk

/-- `main`'s error handling: any propagated error sets
`process.exitCode ||= 1`. -/
def exitCodeOf {α : Type u} : Except Err α → Nat
  | .ok _ => 0
  | .error _ => 1

/-! ## Tag grouper and list path (`getPackageVersionsByImageTag`) -/

/-- First-occurrence deduplication with an accumulator of already seen
elements. -/
def dedupAcc (seen : List String) : List String → List String
  | [] => []
  | x :: xs => if x ∈ seen then dedupAcc seen xs else x :: dedupAcc (x :: seen) xs

/-- First-occurrence deduplication, modelling `new Set(tags)` iterated in
insertion order. -/
def dedup (l : List String) : List String := dedupAcc [] l

/-- The tag grouper: `const tagGroup = new Set(tags);
tagGroup.forEach((tag) => tagGroups.set(tag, tagGroup));` — every tag of
the (deduplicated) argument list is re-pointed to the freshly created
group. -/
def mergeTagGroup (tagGroups : AList String (List String))
    (tags : List String) : AList String (List String) :=
  (dedup tags).foldl (fun m t => alSet m t (dedup tags)) tagGroups

/-- The reserved tag for orphan package versions. -/
def UNKNOWN_TAG : String := "Unknown"

/-- A fetch task of the list path: the head tag (first raw tag) and the
index's own digest. -/
structure LTask where
  headTag : String
  ownDigest : String
  deriving DecidableEq, Repr

/-- State built while enumerating ledger records in the list path. -/
structure LState where
  pkgs : List PkgRecord
  tagGroups : AList String (List String)
  digestToHeadTag : AList (Option String) String
  tasks : List LTask
  ab : Option Err
  deriving Repr

/-- The tag-group map is seeded with the reserved `Unknown` group. -/
def initLState : LState :=
  ⟨[], [(UNKNOWN_TAG, [UNKNOWN_TAG])], [], [], none⟩

/-- The enumeration callback of `getPackageVersionsByImageTag`: collect
the record; for a record with a non-empty (unfiltered) tag list, merge its
tags into a group and submit a fetch task keyed by `tags[0]`. -/
def processListRecord (r : PkgRecord) (st : LState) : LState :=
  let st1 := { st with pkgs := st.pkgs ++ [r] }
  match r.tags with
  | [] => st1
  | t0 :: _ =>
    { st1 with
      tagGroups := mergeTagGroup st1.tagGroups r.tags,
      tasks := st1.tasks ++ [⟨t0, r.name⟩] }

/-- The enumeration loop of the list path. -/
def enumList : List PkgRecord → LState → LState
  | [], st => st
  | r :: rest, st =>
    if st.ab.isSome then st
    else enumList rest (processListRecord r st)

/-- Run the list-path fetch tasks in submission order: each resolved fetch
appends the index's own digest (`digests.push(pkg.name)`) and points every
digest of the resulting list at the head tag.  Queued tasks are dropped
once the abort signal fires. -/
def runListTasks (reg : Reg) :
    List LTask → AList (Option String) String → Option Err →
    AList (Option String) String × Option Err
  | [], m, ab => (m, ab)
  | t :: ts, m, ab =>
    if ab.isSome then (m, ab)
    else
      runListTasks reg ts
        ((listUpdateList (getDigestsAbort reg t.headTag ab).2 t.ownDigest).foldl
          (fun m1 d => alSet m1 d t.headTag) m)
        (getDigestsAbort reg t.headTag ab).1

/-- `Map.groupBy(pkgVersions, keyFn)`: groups keyed in order of first
occurrence, members in enumeration order. -/
def alGroupBy (key : PkgRecord → String) (rs : List PkgRecord) :
    AList String (List PkgRecord) :=
  rs.foldl (fun m r => alUpd m (key r) [] (fun l => l ++ [r])) []

/-- `digestToHeadTag.get(pkgV.name) || UNKNOWN_TAG`: a missing or falsy
(empty) head tag falls back to the reserved tag. -/
def headTagOf (d2h : AList (Option String) String) (r : PkgRecord) : String :=
  match alGet d2h (some r.name) with
  | some t => if t = "" then UNKNOWN_TAG else t
  | none => UNKNOWN_TAG

/-- The printing loop of `printPackageVersionsForImageTags`: for each head
tag group, look up its tag group (skip silently if absent), skip groups
not intersecting the requested filter, and print the rest. -/
def printLoop (tagsFilter : List String)
    (tagGroups : AList String (List String)) :
    AList String (List PkgRecord) → List Ev
  | [] => []
  | (headTag, _) :: rest =>
    match alGet tagGroups headTag with
    | none => printLoop tagsFilter tagGroups rest
    | some g =>
      if tagsFilter ≠ [] ∧ ¬ g.any (fun t => t ∈ tagsFilter) then
        printLoop tagsFilter tagGroups rest
      else
        Ev.printGroup headTag :: printLoop tagsFilter tagGroups rest

/-- The `list` subcommand: `printPackageVersionsForImageTags` — reconcile
via the list path, group package versions by head tag, and print the
groups matching the filter.  No deletion API is invoked anywhere on this
path. -/
def runListCmd (reg : Reg) (records : List PkgRecord)
    (tagsFilter : List String) : List Ev :=
  let st := enumList records initLState
  let d2h := (runListTasks reg st.tasks st.digestToHeadTag st.ab).1
  printLoop tagsFilter st.tagGroups (alGroupBy (headTagOf d2h) st.pkgs)

/-! ## `DefaultValueMap` (`util.ts`) -/

/-- `DefaultValueMap.get`: return the stored value, or compute the default
via the callback (which receives the key and the current map), store it,
and return it.  The result is the returned value paired with the updated
map. -/
def dvmGet {K : Type u} {V : Type v} [DecidableEq K]
    (cb : K → AList K V → V) (m : AList K V) (k : K) : V × AList K V :=
  match alGet m k with
  | some v => (v, m)
  | none => (cb k m, alSet m k (cb k m))

/-! ## Command-line parsing (`cmd_parser.ts`, `octo.ts`) -/

/-- Parser errors (`CmdLineParserError`). -/
inductive CmdErr where
  | invalidRepo
  deriving DecidableEq, Repr

/-- `String.prototype.indexOf` for a single character: index of the first
occurrence, `-1` when absent. -/
def jsIndexOf (s : String) (c : Char) : Int :=
  match s.toList.findIdx? (fun x => x = c) with
  | some i => (i : Int)
  | none => -1

/-- `validateRepo`: reject a falsy (empty) repository string or one whose
first `/` is at an index below 1. -/
def validateRepo (repo : String) : Except CmdErr String :=
  if repo = "" ∨ jsIndexOf repo '/' < 1 then .error CmdErr.invalidRepo
  else .ok repo

/-- Split a character list at every occurrence of `c`, keeping empty
segments, as `String.prototype.split` does for a one-character
separator. -/
def splitOnChar (c : Char) : List Char → List (List Char)
  | [] => [[]]
  | x :: xs =>
    match splitOnChar c xs with
    | [] => if x = c then [[], []] else [[x]]
    | g :: gs => if x = c then [] :: g :: gs else (x :: g) :: gs

/-- `repo.split("/", 2)`: at most the first two segments are produced. -/
def jsSplit2 (s : String) : List String :=
  ((splitOnChar '/' s.toList).take 2).map (fun l => String.mk l)

/-- `unpackRepo`: destructure `repo.split("/", 2)` into the account and
package-name components (`none` models a JavaScript `undefined` slot). -/
def unpackRepo (repo : String) : Option String × Option String :=
  match jsSplit2 repo with
  | [] => (none, none)
  | [a] => (some a, none)
  | a :: b :: _ => (some a, some b)

/-! ## Theorems -/

/-- Claim C9: `DefaultValueMap.get(k)` never leaves the caller without a
value: if `k` is absent the callback's value is inserted and returned,
after any `get(k)` the map contains `k` bound to the returned value, and a
second `get(k)` returns the same value without further changing the map. -/
theorem dvmGet_get_or_create {K : Type u} {V : Type v} [DecidableEq K]
    (cb : K → AList K V → V) (m : AList K V) (k : K) :
    (alGet m k = none → dvmGet cb m k = (cb k m, alSet m k (cb k m)))
    ∧ (∀ v, alGet m k = some v → dvmGet cb m k = (v, m))
    ∧ alGet (dvmGet cb m k).2 k = some (dvmGet cb m k).1
    ∧ dvmGet cb (dvmGet cb m k).2 k = ((dvmGet cb m k).1, (dvmGet cb m k).2) := by
  refine ⟨?_, ?_, ?_, ?_⟩
  · intro h
    simp [dvmGet, h]
  · intro v h
    simp [dvmGet, h]
  · cases h : alGet m k with
    | none => simp [dvmGet, h, alGet_alSet_self]
    | some v => simp [dvmGet, h]
  · cases h : alGet m k with
    | none => simp [dvmGet, h, alGet_alSet_self]
    | some v => simp [dvmGet, h]

/-- Witness for C9 at a concrete map: a get on a missing key inserts the
callback value, and a get on the resulting map returns it unchanged. -/
theorem dvmGet_get_or_create_witness :
    dvmGet (fun _ _ => 7) ([] : AList Nat Nat) 0 = (7, [(0, 7)])
    ∧ dvmGet (fun _ _ => 7) ([(0, 7)] : AList Nat Nat) 0 = (7, [(0, 7)]) :=
  ⟨(dvmGet_get_or_create (fun _ _ => 7) [] 0).1 rfl,
   (dvmGet_get_or_create (fun _ _ => 7) [(0, 7)] 0).2.1 7 rfl⟩

theorem findIdx?_slash (a rest : List Char) (h : '/' ∉ a) (i : Nat) :
    List.findIdx? (fun x => x = '/') (a ++ '/' :: rest) i = some (a.length + i) := by
  induction a generalizing i with
  | nil => simp [List.findIdx?_cons]
  | cons x a ih =>
    have hx : x ≠ '/' := fun he => h (he ▸ List.mem_cons_self x a)
    have hrec := ih (fun hm => h (List.mem_cons_of_mem x hm)) (i + 1)
    simp only [List.cons_append, List.findIdx?_cons, decide_eq_true_eq, if_neg hx, hrec,
      List.length_cons]
    congr 1
    omega

theorem splitOnChar_ne_nil (c : Char) (l : List Char) : splitOnChar c l ≠ [] := by
  cases l with
  | nil => simp [splitOnChar]
  | cons x xs =>
    rw [splitOnChar]
    cases splitOnChar c xs with
    | nil => by_cases hx : x = c <;> simp [hx]
    | cons g gs => by_cases hx : x = c <;> simp [hx]

theorem splitOnChar_takeWhile (c : Char) (l : List Char) :
    ∃ gs, splitOnChar c l = l.takeWhile (fun x => x ≠ c) :: gs := by
  induction l with
  | nil => exact ⟨[], rfl⟩
  | cons x xs ih =>
    obtain ⟨gs, hgs⟩ := ih
    by_cases hx : x = c
    · refine ⟨xs.takeWhile (fun x => x ≠ c) :: gs, ?_⟩
      rw [splitOnChar, hgs]
      simp [hx, List.takeWhile_cons]
    · refine ⟨gs, ?_⟩
      rw [splitOnChar, hgs]
      simp [hx, List.takeWhile_cons]

theorem splitOnChar_append (c : Char) (a rest : List Char) (h : c ∉ a) :
    splitOnChar c (a ++ c :: rest) = a :: splitOnChar c rest := by
  induction a with
  | nil =>
    rw [List.nil_append, splitOnChar]
    cases hs : splitOnChar c rest with
    | nil => exact absurd hs (splitOnChar_ne_nil c rest)
    | cons g gs => simp
  | cons x a ih =>
    have hx : x ≠ c := fun he => h (he ▸ List.mem_cons_self x a)
    have hrec := ih (fun hm => h (List.mem_cons_of_mem x hm))
    rw [List.cons_append, splitOnChar, hrec]
    simp [hx]

/-- Claim C10 counterexample: the string `/a/b` contains a `/` at index 2
(which is `≥ 1`), yet `validateRepo` rejects it — `indexOf` looks at the
first slash only. -/
theorem validateRepo_rejects_inner_slash_cex :
    validateRepo "/a/b" = .error CmdErr.invalidRepo
    ∧ "/a/b".toList.get? 2 = some '/' := by
  constructor
  · rfl
  · rfl

/-- Claim C10 (amended): for every repository string whose FIRST `/` is at
index 1 or greater, `validateRepo` accepts it, and `unpackRepo` returns
the substring before the first `/` as the account and the component
between the first and second `/` as the package name, silently discarding
anything after a second `/`. -/
theorem validateRepo_unpackRepo_first_slash (a rest : List Char)
    (ha : a ≠ []) (hs : '/' ∉ a) :
    validateRepo (String.mk (a ++ '/' :: rest)) = .ok (String.mk (a ++ '/' :: rest))
    ∧ unpackRepo (String.mk (a ++ '/' :: rest)) =
        (some (String.mk a), some (String.mk (rest.takeWhile (fun x => x ≠ '/')))) := by
  constructor
  · have hne : String.mk (a ++ '/' :: rest) ≠ "" := by
      intro he
      have hdata := congrArg String.data he
      simp at hdata
    have hidx : jsIndexOf (String.mk (a ++ '/' :: rest)) '/' = (a.length : Int) := by
      unfold jsIndexOf
      have : (String.mk (a ++ '/' :: rest)).toList = a ++ '/' :: rest := rfl
      rw [this, findIdx?_slash a rest hs 0]
      simp
    have hlen : 1 ≤ a.length := by
      cases a with
      | nil => exact absurd rfl ha
      | cons x xs => simp
    unfold validateRepo
    rw [if_neg]
    push_neg
    refine ⟨hne, ?_⟩
    rw [hidx]
    exact_mod_cast hlen
  · unfold unpackRepo jsSplit2
    have htl : (String.mk (a ++ '/' :: rest)).toList = a ++ '/' :: rest := rfl
    rw [htl, splitOnChar_append '/' a rest hs]
    obtain ⟨gs, hgs⟩ := splitOnChar_takeWhile '/' rest
    rw [hgs]
    simp

/-- Witness for C10 at the concrete repository string `p/q/r`. -/
theorem validateRepo_unpackRepo_first_slash_witness :
    validateRepo "p/q/r" = .ok "p/q/r"
    ∧ unpackRepo "p/q/r" = (some "p", some "q") :=
  validateRepo_unpackRepo_first_slash ['p'] ['q', '/', 'r'] (by decide) (by decide)

theorem mem_dedupAcc (l : List String) (t : String) :
    ∀ seen : List String, t ∈ dedupAcc seen l ↔ t ∈ l ∧ t ∉ seen := by
  induction l with
  | nil => intro seen; simp [dedupAcc]
  | cons x xs ih =>
    intro seen
    by_cases hx : x ∈ seen
    · rw [dedupAcc, if_pos hx, ih seen]
      constructor
      · exact fun h => ⟨List.mem_cons_of_mem x h.1, h.2⟩
      · rintro ⟨hm, hns⟩
        rcases List.mem_cons.mp hm with he | hm2
        · exact absurd (he ▸ hx) hns
        · exact ⟨hm2, hns⟩
    · rw [dedupAcc, if_neg hx]
      by_cases htx : t = x
      · subst htx
        simp [hx]
      · rw [List.mem_cons, ih (x :: seen)]
        simp [htx, List.mem_cons]

theorem mem_dedup (l : List String) (t : String) : t ∈ dedup l ↔ t ∈ l := by
  rw [dedup, mem_dedupAcc]
  simp

theorem alGet_foldl_alSet (g : List String) (v : List String)
    (m : AList String (List String)) (t : String) :
    alGet (g.foldl (fun m1 x => alSet m1 x v) m) t =
      if t ∈ g then some v else alGet m t := by
  induction g generalizing m with
  | nil => simp
  | cons x g ih =>
    rw [List.foldl_cons, ih]
    by_cases hg : t ∈ g
    · simp [hg]
    · by_cases hx : t = x
      · simp [hg, hx, alGet_alSet_self]
      · have : x ≠ t := fun he => hx he.symm
        simp [hg, hx, alGet_alSet_ne _ _ _ _ this]

/-- Claim C3 counterexample: after grouping `[a, b]` and then `[b, c]`,
looking up `a` (a member of the old group that `b` belonged to) still
yields the stale group `[a, b]`, which does not contain `c` — the two
groups were not merged into a union. -/
theorem mergeTagGroup_no_union_cex :
    alGet (mergeTagGroup (mergeTagGroup [] ["a", "b"]) ["b", "c"]) "a" = some ["a", "b"]
    ∧ alGet (mergeTagGroup (mergeTagGroup [] ["a", "b"]) ["b", "c"]) "b" = some ["b", "c"]
    ∧ "c" ∉ ["a", "b"] := by
  refine ⟨?_, ?_, ?_⟩ <;> decide

/-- Claim C3 (amended): the tag grouper does not merge — the new tag list
forms a fresh group (its deduplicated members) and every tag of the new
list is re-pointed to it, while any tag not in the new list keeps its
previous (possibly now stale) mapping.  No crash occurs: the operation is
total. -/
theorem mergeTagGroup_repoints_only_new_tags (m : AList String (List String))
    (tags : List String) (t : String) :
    (t ∈ tags → alGet (mergeTagGroup m tags) t = some (dedup tags))
    ∧ (t ∉ tags → alGet (mergeTagGroup m tags) t = alGet m t) := by
  unfold mergeTagGroup
  rw [alGet_foldl_alSet]
  constructor
  · intro h
    rw [if_pos ((mem_dedup tags t).mpr h)]
  · intro h
    rw [if_neg (fun hd => h ((mem_dedup tags t).mp hd))]

/-- Witness for C3 at the concrete group map produced by `[a, b]` and the
new tag list `[b, c]`. -/
theorem mergeTagGroup_repoints_only_new_tags_witness :
    alGet (mergeTagGroup [("a", ["a", "b"]), ("b", ["a", "b"])] ["b", "c"]) "b"
      = some (dedup ["b", "c"])
    ∧ alGet (mergeTagGroup [("a", ["a", "b"]), ("b", ["a", "b"])] ["b", "c"]) "a"
      = alGet [("a", ["a", "b"]), ("b", ["a", "b"])] "a" :=
  ⟨(mergeTagGroup_repoints_only_new_tags [("a", ["a", "b"]), ("b", ["a", "b"])]
      ["b", "c"] "b").1 (by decide),
   (mergeTagGroup_repoints_only_new_tags [("a", ["a", "b"]), ("b", ["a", "b"])]
      ["b", "c"] "a").2 (by decide)⟩

/-- Claim C2 counterexample: in the delete/report path, the
constituent-digest list with which a resolved fetch updates dependent
nodes is the fetched list unchanged — for an index of digest `d0` whose
manifest lists only `d1`, the update list does not include the index's own
digest at all, let alone appended exactly once. -/
theorem delete_path_no_self_append_cex :
    deleteUpdateList [some "d1"] "d0" = [some "d1"]
    ∧ some "d0" ∉ deleteUpdateList [some "d1"] "d0"
    ∧ List.count (some "d0") (deleteUpdateList [some "d1"] "d0") = 0 := by
  refine ⟨rfl, ?_, ?_⟩ <;> decide

/-- Claim C2 (amended): the list path appends the index's own digest to
the fetched constituent list exactly once; the delete/report path uses the
fetched list unchanged (no self-append) and instead the enumeration step
itself sets the index node's `indexDigest` to the record's own digest
(with `isOrphan = false`, the filtered tags, and the record's id). -/
theorem indexDigest_self_and_update_lists (fetched : List (Option String))
    (own : String) (tagsToDelete : List String) (r : PkgRecord) (st : DState)
    (t0 : String) (ts : List String)
    (h : r.tags.filter (fun t => t ≠ "") = t0 :: ts) :
    List.count (some own) (listUpdateList fetched own)
      = List.count (some own) fetched + 1
    ∧ deleteUpdateList fetched own = fetched
    ∧ alGet (processDeleteRecord tagsToDelete r st).map (some r.name) =
        some { id := some r.id,
               isOrphan := false,
               belongsToTagsToDelete := (t0 :: ts).any (fun t => t ∈ tagsToDelete),
               indexDigest := r.name,
               tags := t0 :: ts } := by
  refine ⟨?_, rfl, ?_⟩
  · rw [listUpdateList, List.count_append]
    simp
  · rw [processDeleteRecord, h]
    simp only [alGet_alUpd_self]

/-- Witness for C2 at a concrete index record of digest `d0` tagged `v1`. -/
theorem indexDigest_self_and_update_lists_witness :
    List.count (some "d0") (listUpdateList [some "d1"] "d0")
      = List.count (some "d0") [some "d1"] + 1
    ∧ deleteUpdateList [some "d1"] "d0" = [some "d1"]
    ∧ alGet (processDeleteRecord ["v1"] ⟨1, "d0", ["v1"]⟩ initDState).map (some "d0") =
        some { id := some 1,
               isOrphan := false,
               belongsToTagsToDelete := ["v1"].any (fun t => t ∈ ["v1"]),
               indexDigest := "d0",
               tags := ["v1"] } :=
  indexDigest_self_and_update_lists [some "d1"] "d0" ["v1"] ⟨1, "d0", ["v1"]⟩
    initDState "v1" [] (by decide)

/-- A fetch update never clears the non-orphan mark nor the parent index
pointer once it set them on a node. -/
theorem deleteTaskUpdate_preserves (t : TaskData) (ds : List (Option String))
    (m : AList (Option String) PkgInfo) (d : Option String) (i : PkgInfo)
    (h : alGet m d = some i)
    (hP : i.isOrphan = false ∧ i.indexDigest = t.pkgDigest) :
    ∃ i9, alGet (deleteTaskUpdate t ds m) d = some i9
      ∧ i9.isOrphan = false ∧ i9.indexDigest = t.pkgDigest := by
  induction ds generalizing m i with
  | nil => exact ⟨i, h, hP.1, hP.2⟩
  | cons d0 ds ih =>
    rw [deleteTaskUpdate, List.foldl_cons]
    by_cases hd : d0 = d
    · subst hd
      have hself := alGet_alUpd_self m d0 defaultPkgInfo
        (fun i1 => { i1 with belongsToTagsToDelete := t.belongs,
                             isOrphan := false, indexDigest := t.pkgDigest })
      exact ih _ _ hself ⟨rfl, rfl⟩
    · have hother : alGet (alUpd m d0 defaultPkgInfo
          (fun i1 => { i1 with belongsToTagsToDelete := t.belongs,
                               isOrphan := false, indexDigest := t.pkgDigest })) d
          = some i := by
        rw [alGet_alUpd_ne _ _ _ _ _ hd, h]
      exact ih _ i hother hP

/-- Every digest of the update list ends up with a node marked non-orphan
and pointing at the parent index. -/
theorem deleteTaskUpdate_mem (t : TaskData) (ds : List (Option String))
    (m : AList (Option String) PkgInfo) (d : Option String) (hd : d ∈ ds) :
    ∃ i9, alGet (deleteTaskUpdate t ds m) d = some i9
      ∧ i9.isOrphan = false ∧ i9.indexDigest = t.pkgDigest := by
  induction ds generalizing m with
  | nil => exact absurd hd (List.not_mem_nil d)
  | cons d0 ds ih =>
    rw [deleteTaskUpdate, List.foldl_cons]
    rcases List.mem_cons.mp hd with he | hm
    · subst he
      have hself := alGet_alUpd_self m d defaultPkgInfo
        (fun i1 => { i1 with belongsToTagsToDelete := t.belongs,
                             isOrphan := false, indexDigest := t.pkgDigest })
      exact deleteTaskUpdate_preserves t ds _ d _ hself ⟨rfl, rfl⟩
    · exact ih _ hm

/-- Registry oracle for the C6 counterexample: the fetched index has one
entry with digest `d1` and one entry lacking a digest field. -/
def regMissingDigest : Reg := fun _ => .ok [some "d1", none]

/-- Claim C6 counterexample: an index entry lacking a digest field is NOT
skipped by the reconciliation fetch — `getDigestsFromManifestIndex` keeps
the undefined digest in the returned list and the graph update creates a
node keyed by the undefined digest, marked non-orphan and pointing at the
parent index. -/
theorem missing_digest_contributes_node_cex :
    (getDigestsAbort regMissingDigest "v1" none).2 = [some "d1", none]
    ∧ alGet (deleteTaskUpdate ⟨"d0", "v1", false⟩
        (getDigestsAbort regMissingDigest "v1" none).2 []) none =
      some { id := none, isOrphan := false, belongsToTagsToDelete := false,
             indexDigest := "d0", tags := [] } := by
  refine ⟨rfl, ?_⟩
  decide

/-- Claim C6 (amended): an entry lacking a digest field is not skipped and
not fatal: a successful non-empty fetch is returned unchanged (including
the undefined digests, with the abort signal untouched), and the graph
update folds the undefined digest in as a node of its own, marked
non-orphan and pointing at the fetching index.  The missing-digest warning
of `printImageIndex` is not reached because the reconciliation paths call
the fetch with `printImageIndex: false`. -/
theorem missing_digest_not_skipped (reg : Reg) (tag : String) (ab : Option Err)
    (ms : List (Option String)) (t : TaskData)
    (m : AList (Option String) PkgInfo)
    (hreg : reg tag = .ok ms) (hne : ms ≠ []) (hmem : none ∈ ms) :
    getDigestsAbort reg tag ab = (ab, ms)
    ∧ ∃ i9, alGet (deleteTaskUpdate t ms m) none = some i9
        ∧ i9.isOrphan = false ∧ i9.indexDigest = t.pkgDigest := by
  constructor
  · rw [getDigestsAbort, hreg]
    simp [hne]
  · exact deleteTaskUpdate_mem t ms m none hmem

/-- Witness for C6 at the concrete fetched index `[some d1, none]`. -/
theorem missing_digest_not_skipped_witness :
    getDigestsAbort regMissingDigest "v1" none = (none, [some "d1", none])
    ∧ ∃ i9, alGet (deleteTaskUpdate ⟨"d0", "v1", false⟩ [some "d1", none] []) none
        = some i9 ∧ i9.isOrphan = false ∧ i9.indexDigest = "d0" :=
  missing_digest_not_skipped regMissingDigest "v1" none [some "d1", none]
    ⟨"d0", "v1", false⟩ [] rfl (by decide) (by decide)

theorem deleteLoop_cons_bad (delOrph : Bool) (delOk : Option String → Bool)
    (d : Option String) (i : PkgInfo) (rest : List (Option String × PkgInfo))
    (hc : i.isOrphan = true ∧ (i.indexDigest ≠ "" ∨ i.tags ≠ [])) :
    deleteLoop delOrph delOk ((d, i) :: rest) =
      ([], .error (Err.inconsistentOrphan d)) := by
  rw [deleteLoop, if_pos hc]

theorem deleteLoop_cons_noid (delOrph : Bool) (delOk : Option String → Bool)
    (d : Option String) (i : PkgInfo) (rest : List (Option String × PkgInfo))
    (hc : ¬ (i.isOrphan = true ∧ (i.indexDigest ≠ "" ∨ i.tags ≠ [])))
    (hid : i.id = none) :
    deleteLoop delOrph delOk ((d, i) :: rest) = deleteLoop delOrph delOk rest := by
  rw [deleteLoop, if_neg hc, hid]

theorem deleteLoop_cons_skip (delOrph : Bool) (delOk : Option String → Bool)
    (d : Option String) (i : PkgInfo) (rest : List (Option String × PkgInfo))
    (k : Nat)
    (hc : ¬ (i.isOrphan = true ∧ (i.indexDigest ≠ "" ∨ i.tags ≠ [])))
    (hid : i.id = some k)
    (he : ¬ (i.belongsToTagsToDelete = true ∨ (delOrph = true ∧ i.isOrphan = true))) :
    deleteLoop delOrph delOk ((d, i) :: rest) = deleteLoop delOrph delOk rest := by
  rw [deleteLoop, if_neg hc, hid]
  simp only [if_neg he]

theorem deleteLoop_cons_ok (delOrph : Bool) (delOk : Option String → Bool)
    (d : Option String) (i : PkgInfo) (rest : List (Option String × PkgInfo))
    (k : Nat)
    (hc : ¬ (i.isOrphan = true ∧ (i.indexDigest ≠ "" ∨ i.tags ≠ [])))
    (hid : i.id = some k)
    (he : i.belongsToTagsToDelete = true ∨ (delOrph = true ∧ i.isOrphan = true))
    (hok : delOk d = true) :
    deleteLoop delOrph delOk ((d, i) :: rest) =
      (Ev.delAttempt d :: (deleteLoop delOrph delOk rest).1,
       incrDeleted (deleteLoop delOrph delOk rest).2) := by
  rw [deleteLoop, if_neg hc, hid]
  simp only [if_pos he, hok, if_pos]

theorem deleteLoop_cons_fail (delOrph : Bool) (delOk : Option String → Bool)
    (d : Option String) (i : PkgInfo) (rest : List (Option String × PkgInfo))
    (k : Nat)
    (hc : ¬ (i.isOrphan = true ∧ (i.indexDigest ≠ "" ∨ i.tags ≠ [])))
    (hid : i.id = some k)
    (he : i.belongsToTagsToDelete = true ∨ (delOrph = true ∧ i.isOrphan = true))
    (hok : delOk d = false) :
    deleteLoop delOrph delOk ((d, i) :: rest) =
      ([Ev.delAttempt d], .error (Err.apiFailure d)) := by
  rw [deleteLoop, if_neg hc, hid]
  simp only [if_pos he, hok]
  rfl

/-- Claim C1 counterexample: two eligible entries; the deletion call for
the first (`d1`) fails, and the second (`d2`) — although it satisfies the
deletion predicate — is never attempted: the loop has no per-entry error
handling, so the exception aborts the whole batch. -/
theorem deletion_failure_stops_batch_cex :
    (PkgInfo.mk (some 2) false true "dA" []).belongsToTagsToDelete = true
    ∧ (deleteLoop false (fun d => d ≠ some "d1")
        [(some "d1", PkgInfo.mk (some 1) false true "dA" []),
         (some "d2", PkgInfo.mk (some 2) false true "dA" [])])
      = ([Ev.delAttempt (some "d1")], .error (Err.apiFailure (some "d1")))
    ∧ Ev.delAttempt (some "d2") ∉
        (deleteLoop false (fun d => d ≠ some "d1")
          [(some "d1", PkgInfo.mk (some 1) false true "dA" []),
           (some "d2", PkgInfo.mk (some 2) false true "dA" [])]).1 := by
  refine ⟨rfl, rfl, ?_⟩
  decide

/-- Claim C1 (amended): entries are attempted in insertion order until the
first failed deletion call; a failure aborts the batch — the failing entry
is the last one attempted, no later entry (eligible or not) is attempted,
the error propagates, and the run is marked failed on exit (non-zero exit
status). -/
theorem delete_stops_at_first_failure (delOrph : Bool)
    (delOk : Option String → Bool) (pre post : List (Option String × PkgInfo))
    (d : Option String) (i : PkgInfo) (n k : Nat)
    (hpre : (deleteLoop delOrph delOk pre).2 = .ok n)
    (hcons : ¬ (i.isOrphan = true ∧ (i.indexDigest ≠ "" ∨ i.tags ≠ [])))
    (hid : i.id = some k)
    (helig : i.belongsToTagsToDelete = true ∨ (delOrph = true ∧ i.isOrphan = true))
    (hfail : delOk d = false) :
    deleteLoop delOrph delOk (pre ++ (d, i) :: post) =
      ((deleteLoop delOrph delOk pre).1 ++ [Ev.delAttempt d],
       .error (Err.apiFailure d))
    ∧ exitCodeOf (deleteLoop delOrph delOk (pre ++ (d, i) :: post)).2 = 1 := by
  have hmain : deleteLoop delOrph delOk (pre ++ (d, i) :: post) =
      ((deleteLoop delOrph delOk pre).1 ++ [Ev.delAttempt d],
       .error (Err.apiFailure d)) := by
    induction pre generalizing n with
    | nil =>
      rw [List.nil_append,
        deleteLoop_cons_fail delOrph delOk d i post k hcons hid helig hfail]
      rfl
    | cons hd0 pre ih =>
      obtain ⟨d0, i0⟩ := hd0
      by_cases hc0 : i0.isOrphan = true ∧ (i0.indexDigest ≠ "" ∨ i0.tags ≠ [])
      · rw [deleteLoop_cons_bad delOrph delOk d0 i0 pre hc0] at hpre
        exact absurd hpre (by simp)
      · cases hi0 : i0.id with
        | none =>
          rw [deleteLoop_cons_noid delOrph delOk d0 i0 pre hc0 hi0] at hpre
          rw [List.cons_append,
            deleteLoop_cons_noid delOrph delOk d0 i0 _ hc0 hi0,
            deleteLoop_cons_noid delOrph delOk d0 i0 pre hc0 hi0]
          exact ih n hpre
        | some k0 =>
          by_cases he0 : i0.belongsToTagsToDelete = true
              ∨ (delOrph = true ∧ i0.isOrphan = true)
          · cases hok : delOk d0 with
            | false =>
              rw [deleteLoop_cons_fail delOrph delOk d0 i0 pre k0 hc0 hi0 he0 hok]
                at hpre
              exact absurd hpre (by simp)
            | true =>
              rw [deleteLoop_cons_ok delOrph delOk d0 i0 pre k0 hc0 hi0 he0 hok]
                at hpre
              cases hrec : (deleteLoop delOrph delOk pre).2 with
              | error e =>
                rw [hrec] at hpre
                exact absurd hpre (by simp [incrDeleted])
              | ok n1 =>
                have hstep := ih n1 hrec
                rw [List.cons_append,
                  deleteLoop_cons_ok delOrph delOk d0 i0 _ k0 hc0 hi0 he0 hok,
                  hstep,
                  deleteLoop_cons_ok delOrph delOk d0 i0 pre k0 hc0 hi0 he0 hok]
                simp [incrDeleted]
          · rw [deleteLoop_cons_skip delOrph delOk d0 i0 pre k0 hc0 hi0 he0]
              at hpre
            rw [List.cons_append,
              deleteLoop_cons_skip delOrph delOk d0 i0 _ k0 hc0 hi0 he0,
              deleteLoop_cons_skip delOrph delOk d0 i0 pre k0 hc0 hi0 he0]
            exact ih n hpre
  refine ⟨hmain, ?_⟩
  rw [hmain]
  rfl

/-- Witness for C1 at a concrete batch: an eligible entry `d2` placed
after the failing entry `d1`. -/
theorem delete_stops_at_first_failure_witness :
    deleteLoop false (fun d => d ≠ some "d1")
      ([] ++ (some "d1", PkgInfo.mk (some 1) false true "dA" []) ::
        [(some "d2", PkgInfo.mk (some 2) false true "dA" [])]) =
      ((deleteLoop false (fun d => d ≠ some "d1") []).1 ++ [Ev.delAttempt (some "d1")],
       .error (Err.apiFailure (some "d1")))
    ∧ exitCodeOf (deleteLoop false (fun d => d ≠ some "d1")
        ([] ++ (some "d1", PkgInfo.mk (some 1) false true "dA" []) ::
          [(some "d2", PkgInfo.mk (some 2) false true "dA" [])])).2 = 1 :=
  delete_stops_at_first_failure false (fun d => d ≠ some "d1") []
    [(some "d2", PkgInfo.mk (some 2) false true "dA" [])]
    (some "d1") (PkgInfo.mk (some 1) false true "dA" []) 0 1
    rfl (by decide) rfl (by decide) (by decide)

/-- Claim C7: in delete mode, a graph entry flagged orphan that
simultaneously carries a non-empty `indexDigest` or a non-empty tag list
is never the subject of a deletion call, and the deletion loop ends in a
fatal error; when no deletion call fails on its own, that error is
specifically the orphan-consistency error. -/
theorem inconsistent_orphan_refused (delOrph : Bool)
    (delOk : Option String → Bool) (entries : List (Option String × PkgInfo))
    (d : Option String) (i : PkgInfo)
    (hnd : (entries.map Prod.fst).Nodup)
    (hmem : (d, i) ∈ entries) (horph : i.isOrphan = true)
    (hbad : i.indexDigest ≠ "" ∨ i.tags ≠ []) :
    Ev.delAttempt d ∉ (deleteLoop delOrph delOk entries).1
    ∧ (∃ e, (deleteLoop delOrph delOk entries).2 = .error e)
    ∧ ((∀ x, delOk x = true) →
        ∃ d9, (deleteLoop delOrph delOk entries).2 =
          .error (Err.inconsistentOrphan d9)) := by
  induction entries with
  | nil => exact absurd hmem (List.not_mem_nil _)
  | cons hd0 rest ih =>
    obtain ⟨d0, i0⟩ := hd0
    rcases List.mem_cons.mp hmem with he | hm
    · have hi1 : i = i0 := congrArg Prod.snd he
      rw [deleteLoop_cons_bad delOrph delOk d0 i0 rest ⟨hi1 ▸ horph, hi1 ▸ hbad⟩]
      exact ⟨List.not_mem_nil _, ⟨_, rfl⟩, fun _ => ⟨d0, rfl⟩⟩
    · have hdne : d ≠ d0 := by
        intro he2
        subst he2
        have h1 : d ∉ rest.map Prod.fst := (List.nodup_cons.mp hnd).1
        exact h1 (List.mem_map.mpr ⟨(d, i), hm, rfl⟩)
      have ihr := ih (List.nodup_cons.mp hnd).2 hm
      by_cases hc0 : i0.isOrphan = true ∧ (i0.indexDigest ≠ "" ∨ i0.tags ≠ [])
      · rw [deleteLoop_cons_bad delOrph delOk d0 i0 rest hc0]
        exact ⟨List.not_mem_nil _, ⟨_, rfl⟩, fun _ => ⟨d0, rfl⟩⟩
      · cases hi0 : i0.id with
        | none =>
          rw [deleteLoop_cons_noid delOrph delOk d0 i0 rest hc0 hi0]
          exact ihr
        | some k0 =>
          by_cases he0 : i0.belongsToTagsToDelete = true
              ∨ (delOrph = true ∧ i0.isOrphan = true)
          · cases hok : delOk d0 with
            | false =>
              rw [deleteLoop_cons_fail delOrph delOk d0 i0 rest k0 hc0 hi0 he0 hok]
              refine ⟨?_, ⟨_, rfl⟩, ?_⟩
              · intro hmem2
                rcases List.mem_singleton.mp hmem2 with he2
                exact hdne (Ev.delAttempt.injEq d d0 ▸ he2)
              · intro hall
                exact absurd hok (by simp [hall d0])
            | true =>
              rw [deleteLoop_cons_ok delOrph delOk d0 i0 rest k0 hc0 hi0 he0 hok]
              refine ⟨?_, ?_, ?_⟩
              · intro hmem2
                rcases List.mem_cons.mp hmem2 with he2 | hm2
                · exact hdne (Ev.delAttempt.injEq d d0 ▸ he2)
                · exact ihr.1 hm2
              · obtain ⟨e, hee⟩ := ihr.2.1
                exact ⟨e, by simp [hee, incrDeleted]⟩
              · intro hall
                obtain ⟨d9, hee⟩ := ihr.2.2 hall
                exact ⟨d9, by simp [hee, incrDeleted]⟩
          · rw [deleteLoop_cons_skip delOrph delOk d0 i0 rest k0 hc0 hi0 he0]
            exact ihr

/-- Witness for C7 at a concrete graph containing one inconsistent orphan
entry (orphan yet carrying an `indexDigest`). -/
theorem inconsistent_orphan_refused_witness :
    Ev.delAttempt (some "dx") ∉
      (deleteLoop true (fun _ => true)
        [(some "dx", PkgInfo.mk (some 5) true false "d9" [])]).1
    ∧ (∃ e, (deleteLoop true (fun _ => true)
        [(some "dx", PkgInfo.mk (some 5) true false "d9" [])]).2 = .error e)
    ∧ ((∀ x : Option String, (fun _ => true) x = true) →
        ∃ d9, (deleteLoop true (fun _ => true)
          [(some "dx", PkgInfo.mk (some 5) true false "d9" [])]).2 =
            .error (Err.inconsistentOrphan d9)) :=
  inconsistent_orphan_refused true (fun _ => true)
    [(some "dx", PkgInfo.mk (some 5) true false "d9" [])]
    (some "dx") (PkgInfo.mk (some 5) true false "d9" [])
    (by decide) (by decide) rfl (by decide)

theorem enumDelete_aborted (tags : List String) (rs : List PkgRecord)
    (st : DState) (h : st.ab.isSome) : enumDelete tags rs st = .ok st := by
  cases rs with
  | nil => rfl
  | cons r rest => rw [enumDelete, if_pos h]

theorem enumDelete_append (tags : List String) (xs ys : List PkgRecord)
    (st : DState) :
    enumDelete tags (xs ++ ys) st =
      match enumDelete tags xs st with
      | .error e => .error e
      | .ok st1 => enumDelete tags ys st1 := by
  induction xs generalizing st with
  | nil => rfl
  | cons r xs ih =>
    by_cases hab : st.ab.isSome
    · rw [List.cons_append, enumDelete, if_pos hab, enumDelete, if_pos hab]
      exact (enumDelete_aborted tags ys st hab).symm
    · by_cases hr : r.name = ""
      · rw [List.cons_append, enumDelete, if_neg hab, if_pos hr, enumDelete,
          if_neg hab, if_pos hr]
      · rw [List.cons_append, enumDelete, if_neg hab, if_neg hr, enumDelete,
          if_neg hab, if_neg hr]
        exact ih _

/-- `processDeleteRecord` never touches the abort signal and only ever
appends to the task list. -/
theorem enumDelete_ab_tasks (tags : List String) (rs : List PkgRecord)
    (st st1 : DState) (h : enumDelete tags rs st = .ok st1) :
    st1.ab = st.ab ∧ ∃ ts, st1.tasks = st.tasks ++ ts := by
  induction rs generalizing st with
  | nil =>
    rw [enumDelete] at h
    cases h
    exact ⟨rfl, [], by simp⟩
  | cons r rest ih =>
    by_cases hab : st.ab.isSome
    · rw [enumDelete, if_pos hab] at h
      cases h
      exact ⟨rfl, [], by simp⟩
    · by_cases hr : r.name = ""
      · rw [enumDelete, if_neg hab, if_pos hr] at h
        cases h
      · rw [enumDelete, if_neg hab, if_neg hr] at h
        obtain ⟨hab1, ts1, hts1⟩ := ih _ h
        rw [processDeleteRecord] at hab1 hts1
        cases hf : r.tags.filter (fun t => t ≠ "") with
        | nil =>
          rw [hf] at hab1 hts1
          exact ⟨hab1, ts1, hts1⟩
        | cons t0 tr =>
          rw [hf] at hab1 hts1
          exact ⟨hab1, ⟨r.name, t0, (t0 :: tr).any (fun t => t ∈ tags)⟩ :: ts1,
            by rw [hts1]; simp⟩

theorem processDeleteRecord_plain (tags : List String) (r : PkgRecord)
    (st : DState) (h : r.tags.filter (fun t => t ≠ "") = []) :
    processDeleteRecord tags r st =
      ⟨alUpd st.map (some r.name) defaultPkgInfo
          (fun i => { i with id := some r.id }),
        st.tasks, st.ab⟩ := by
  rw [processDeleteRecord, h]

theorem processDeleteRecord_index (tags : List String) (r : PkgRecord)
    (st : DState) (t0 : String) (ts : List String)
    (h : r.tags.filter (fun t => t ≠ "") = t0 :: ts) :
    processDeleteRecord tags r st =
      ⟨alUpd st.map (some r.name) defaultPkgInfo
          (fun i => { i with id := some r.id, indexDigest := r.name,
                             tags := t0 :: ts, isOrphan := false,
                             belongsToTagsToDelete :=
                               (t0 :: ts).any (fun t => t ∈ tags) }),
        st.tasks ++ [⟨r.name, t0, (t0 :: ts).any (fun t => t ∈ tags)⟩],
        st.ab⟩ := by
  rw [processDeleteRecord, h]

theorem enumDelete_cons_proc (tags : List String) (r : PkgRecord)
    (rest : List PkgRecord) (st : DState) (h1 : st.ab = none)
    (h2 : r.name ≠ "") :
    enumDelete tags (r :: rest) st =
      enumDelete tags rest (processDeleteRecord tags r st) := by
  rw [enumDelete, if_neg (by rw [h1]; simp), if_neg h2]

theorem enumDelete_append_ok (tags : List String) (xs ys : List PkgRecord)
    (st st1 : DState) (h : enumDelete tags xs st = .ok st1) :
    enumDelete tags (xs ++ ys) st = enumDelete tags ys st1 := by
  rw [enumDelete_append, h]

theorem findOrphanOrTagged_of_enum_error (reg : Reg) (tags : List String)
    (records : List PkgRecord) (e : Err)
    (h : enumDelete tags records initDState = .error e) :
    findOrphanOrTagged reg tags records = .error e := by
  rw [findOrphanOrTagged, h]

theorem findOrphanOrTagged_of_enum (reg : Reg) (tags : List String)
    (records : List PkgRecord) (st : DState)
    (h : enumDelete tags records initDState = .ok st) :
    findOrphanOrTagged reg tags records =
      match runDeleteTasks reg st.tasks st.map st.ab with
      | (_, some e) => .error e
      | (m, none) => .ok m := by
  rw [findOrphanOrTagged, h]

/-- Enumerating plain records (non-empty digest, no usable tags) submits
no task and leaves the abort signal clear. -/
theorem enumDelete_plain (tags : List String) (pre : List PkgRecord)
    (st : DState) (hab : st.ab = none)
    (hpre : ∀ p ∈ pre, p.name ≠ "" ∧ p.tags.filter (fun t => t ≠ "") = []) :
    ∃ m, enumDelete tags pre st = .ok ⟨m, st.tasks, none⟩ := by
  induction pre generalizing st with
  | nil =>
    refine ⟨st.map, ?_⟩
    rw [enumDelete, ← hab]
  | cons r rest ih =>
    obtain ⟨hname, htags⟩ := hpre r (List.mem_cons_self r rest)
    rw [enumDelete_cons_proc tags r rest st hab hname,
      processDeleteRecord_plain tags r st htags]
    exact ih _ hab (fun p hp => hpre p (List.mem_cons_of_mem r hp))

theorem runDeleteTasks_aborted (reg : Reg) (ts : List TaskData)
    (m : AList (Option String) PkgInfo) (e : Err) :
    runDeleteTasks reg ts m (some e) = (m, some e) := by
  cases ts with
  | nil => rfl
  | cons t rest =>
    rw [runDeleteTasks, if_pos (by simp)]

/-- Claim C4: if a scheduled manifest-index fetch resolves with an empty
digest list, the run aborts as fatal: in delete mode zero deletion calls
are performed and the exit status is non-zero.  Stated for a ledger whose
first index record (preceded by plain records only) has a head tag whose
fetch returns the empty list — the first submitted task, which always
runs. -/
theorem empty_manifest_aborts_run (reg : Reg) (tagsToDelete : List String)
    (delOrph : Bool) (delOk : Option String → Bool)
    (pre : List PkgRecord) (r : PkgRecord) (post : List PkgRecord)
    (t0 : String) (ts : List String)
    (hpre : ∀ p ∈ pre, p.name ≠ "" ∧ p.tags.filter (fun t => t ≠ "") = [])
    (hname : r.name ≠ "")
    (htags : r.tags.filter (fun t => t ≠ "") = t0 :: ts)
    (hreg : reg t0 = .ok []) :
    (deletePackageVersionsM reg (pre ++ r :: post) tagsToDelete delOrph delOk).1 = []
    ∧ exitCodeOf
        (deletePackageVersionsM reg (pre ++ r :: post) tagsToDelete delOrph delOk).2
      = 1 := by
  obtain ⟨m0, hm0⟩ := enumDelete_plain tagsToDelete pre initDState rfl hpre
  have hstep : enumDelete tagsToDelete (pre ++ r :: post) initDState =
      enumDelete tagsToDelete post
        ⟨alUpd m0 (some r.name) defaultPkgInfo
            (fun i => { i with id := some r.id, indexDigest := r.name,
                               tags := t0 :: ts, isOrphan := false,
                               belongsToTagsToDelete :=
                                 (t0 :: ts).any (fun t => t ∈ tagsToDelete) }),
          [⟨r.name, t0, (t0 :: ts).any (fun t => t ∈ tagsToDelete)⟩], none⟩ := by
    rw [enumDelete_append_ok tagsToDelete pre (r :: post) initDState _ hm0,
      enumDelete_cons_proc tagsToDelete r post _ rfl hname,
      processDeleteRecord_index tagsToDelete r _ t0 ts htags]
    rfl
  have hget : getDigestsAbort reg t0 none = (some (Err.emptyManifest t0), []) := by
    rw [getDigestsAbort, hreg]
    rfl
  have hfind : ∃ e, findOrphanOrTagged reg tagsToDelete (pre ++ r :: post)
      = .error e := by
    cases henum : enumDelete tagsToDelete post
        ⟨alUpd m0 (some r.name) defaultPkgInfo
            (fun i => { i with id := some r.id, indexDigest := r.name,
                               tags := t0 :: ts, isOrphan := false,
                               belongsToTagsToDelete :=
                                 (t0 :: ts).any (fun t => t ∈ tagsToDelete) }),
          [⟨r.name, t0, (t0 :: ts).any (fun t => t ∈ tagsToDelete)⟩], none⟩ with
    | error e =>
      exact ⟨e, findOrphanOrTagged_of_enum_error reg tagsToDelete _ e
        (hstep.trans henum)⟩
    | ok st1 =>
      obtain ⟨hab1, ts1, hts1⟩ := enumDelete_ab_tasks _ _ _ _ henum
      rw [findOrphanOrTagged_of_enum reg tagsToDelete _ st1 (hstep.trans henum)]
      rw [hts1, hab1]
      simp only [List.cons_append, List.nil_append]
      rw [runDeleteTasks, if_neg (by simp), hget]
      simp only []
      rw [runDeleteTasks_aborted]
      exact ⟨Err.emptyManifest t0, rfl⟩
  obtain ⟨e, he⟩ := hfind
  rw [deletePackageVersionsM, he]
  exact ⟨rfl, rfl⟩

/-- Witness for C4 at Scenario E: a single index record `d0` tagged `v1`
whose manifest fetch returns the empty list. -/
theorem empty_manifest_aborts_run_witness :
    (deletePackageVersionsM (fun _ => .ok []) ([] ++ ⟨1, "d0", ["v1"]⟩ :: [])
      ["v1"] false (fun _ => true)).1 = []
    ∧ exitCodeOf (deletePackageVersionsM (fun _ => .ok [])
        ([] ++ ⟨1, "d0", ["v1"]⟩ :: []) ["v1"] false (fun _ => true)).2 = 1 :=
  empty_manifest_aborts_run (fun _ => .ok []) ["v1"] false (fun _ => true)
    [] ⟨1, "d0", ["v1"]⟩ [] "v1" []
    (by intro p hp; exact absurd hp (List.not_mem_nil p))
    (by decide) (by decide) rfl

theorem printLoop_cons_none (tagsF : List String)
    (gs : AList String (List String)) (headTag : String)
    (pkgs : List PkgRecord) (rest : AList String (List PkgRecord))
    (h : alGet gs headTag = none) :
    printLoop tagsF gs ((headTag, pkgs) :: rest) = printLoop tagsF gs rest := by
  rw [printLoop, h]

theorem printLoop_cons_skip (tagsF : List String)
    (gs : AList String (List String)) (headTag : String)
    (pkgs : List PkgRecord) (rest : AList String (List PkgRecord))
    (g : List String) (h : alGet gs headTag = some g)
    (hf : tagsF ≠ [] ∧ ¬ g.any (fun t => t ∈ tagsF)) :
    printLoop tagsF gs ((headTag, pkgs) :: rest) = printLoop tagsF gs rest := by
  rw [printLoop, h]
  show (if tagsF ≠ [] ∧ ¬ g.any (fun t => t ∈ tagsF) then printLoop tagsF gs rest
    else Ev.printGroup headTag :: printLoop tagsF gs rest) = printLoop tagsF gs rest
  rw [if_pos hf]

theorem printLoop_cons_print (tagsF : List String)
    (gs : AList String (List String)) (headTag : String)
    (pkgs : List PkgRecord) (rest : AList String (List PkgRecord))
    (g : List String) (h : alGet gs headTag = some g)
    (hf : ¬ (tagsF ≠ [] ∧ ¬ g.any (fun t => t ∈ tagsF))) :
    printLoop tagsF gs ((headTag, pkgs) :: rest) =
      Ev.printGroup headTag :: printLoop tagsF gs rest := by
  rw [printLoop, h]
  show (if tagsF ≠ [] ∧ ¬ g.any (fun t => t ∈ tagsF) then printLoop tagsF gs rest
    else Ev.printGroup headTag :: printLoop tagsF gs rest)
    = Ev.printGroup headTag :: printLoop tagsF gs rest
  rw [if_neg hf]

theorem printLoop_no_delete (tagsF : List String)
    (gs : AList String (List String)) (al : AList String (List PkgRecord))
    (d : Option String) : Ev.delAttempt d ∉ printLoop tagsF gs al := by
  induction al with
  | nil => simp [printLoop]
  | cons kv rest ih =>
    obtain ⟨headTag, pkgs⟩ := kv
    cases halg : alGet gs headTag with
    | none =>
      rw [printLoop_cons_none tagsF gs headTag pkgs rest halg]
      exact ih
    | some g =>
      by_cases hf : tagsF ≠ [] ∧ ¬ g.any (fun t => t ∈ tagsF)
      · rw [printLoop_cons_skip tagsF gs headTag pkgs rest g halg hf]
        exact ih
      · rw [printLoop_cons_print tagsF gs headTag pkgs rest g halg hf]
        intro hmem
        rcases List.mem_cons.mp hmem with he | hm
        · exact Ev.noConfusion he
        · exact ih hm

theorem any_mem_nil_false (l : List String) :
    (l.any (fun t => t ∈ ([] : List String))) = false := by
  simp

theorem processDeleteRecord_report (r : PkgRecord) (st : DState)
    (hmap : ∀ kv ∈ st.map, kv.2.belongsToTagsToDelete = false)
    (htasks : ∀ t ∈ st.tasks, t.belongs = false) :
    (∀ kv ∈ (processDeleteRecord [] r st).map, kv.2.belongsToTagsToDelete = false)
    ∧ (∀ t ∈ (processDeleteRecord [] r st).tasks, t.belongs = false) := by
  cases hf : r.tags.filter (fun t => t ≠ "") with
  | nil =>
    rw [processDeleteRecord_plain [] r st hf]
    constructor
    · exact alUpd_values (fun v : PkgInfo => v.belongsToTagsToDelete = false) st.map
        (some r.name) defaultPkgInfo (fun i => { i with id := some r.id })
        hmap rfl (fun v hv => hv)
    · exact htasks
  | cons t0 ts =>
    rw [processDeleteRecord_index [] r st t0 ts hf]
    constructor
    · exact alUpd_values (fun v : PkgInfo => v.belongsToTagsToDelete = false) st.map
        (some r.name) defaultPkgInfo
        (fun i => { i with id := some r.id, indexDigest := r.name,
                           tags := t0 :: ts, isOrphan := false,
                           belongsToTagsToDelete :=
                             (t0 :: ts).any (fun t => t ∈ ([] : List String)) })
        hmap rfl (fun v _ => any_mem_nil_false (t0 :: ts))
    · intro t ht
      rcases List.mem_append.mp ht with hm | hm
      · exact htasks t hm
      · rw [List.mem_singleton.mp hm]
        exact any_mem_nil_false (t0 :: ts)

theorem enumDelete_report (rs : List PkgRecord) (st st1 : DState)
    (hmap : ∀ kv ∈ st.map, kv.2.belongsToTagsToDelete = false)
    (htasks : ∀ t ∈ st.tasks, t.belongs = false)
    (h : enumDelete [] rs st = .ok st1) :
    (∀ kv ∈ st1.map, kv.2.belongsToTagsToDelete = false)
    ∧ (∀ t ∈ st1.tasks, t.belongs = false) := by
  induction rs generalizing st with
  | nil =>
    rw [enumDelete] at h
    cases h
    exact ⟨hmap, htasks⟩
  | cons r rest ih =>
    by_cases hab : st.ab.isSome
    · rw [enumDelete, if_pos hab] at h
      cases h
      exact ⟨hmap, htasks⟩
    · by_cases hr : r.name = ""
      · rw [enumDelete, if_neg hab, if_pos hr] at h
        cases h
      · rw [enumDelete, if_neg hab, if_neg hr] at h
        obtain ⟨hm1, ht1⟩ := processDeleteRecord_report r st hmap htasks
        exact ih _ hm1 ht1 h

theorem deleteTaskUpdate_report (t : TaskData) (ds : List (Option String))
    (m : AList (Option String) PkgInfo) (hb : t.belongs = false)
    (hmap : ∀ kv ∈ m, kv.2.belongsToTagsToDelete = false) :
    ∀ kv ∈ deleteTaskUpdate t ds m, kv.2.belongsToTagsToDelete = false := by
  induction ds generalizing m with
  | nil => exact hmap
  | cons d0 ds ih =>
    rw [deleteTaskUpdate, List.foldl_cons]
    exact ih _ (alUpd_values (fun v : PkgInfo => v.belongsToTagsToDelete = false) m d0
      defaultPkgInfo _ hmap rfl (fun v _ => hb))

theorem runDeleteTasks_report (reg : Reg) (ts : List TaskData)
    (m : AList (Option String) PkgInfo) (ab : Option Err)
    (htasks : ∀ t ∈ ts, t.belongs = false)
    (hmap : ∀ kv ∈ m, kv.2.belongsToTagsToDelete = false) :
    ∀ kv ∈ (runDeleteTasks reg ts m ab).1, kv.2.belongsToTagsToDelete = false := by
  induction ts generalizing m ab with
  | nil => exact hmap
  | cons t ts ih =>
    by_cases hab : ab.isSome
    · rw [runDeleteTasks, if_pos hab]
      exact hmap
    · rw [runDeleteTasks, if_neg hab]
      refine ih _ _ (fun t1 h1 => htasks t1 (List.mem_cons_of_mem t h1)) ?_
      exact deleteTaskUpdate_report t _ m (htasks t (List.mem_cons_self t ts)) hmap

theorem findOrphanOrTagged_report (reg : Reg) (records : List PkgRecord)
    (m : AList (Option String) PkgInfo)
    (h : findOrphanOrTagged reg [] records = .ok m) :
    ∀ kv ∈ m, kv.2.belongsToTagsToDelete = false := by
  cases henum : enumDelete [] records initDState with
  | error e =>
    rw [findOrphanOrTagged_of_enum_error reg [] records e henum] at h
    cases h
  | ok st =>
    rw [findOrphanOrTagged_of_enum reg [] records st henum] at h
    obtain ⟨hm1, ht1⟩ := enumDelete_report records initDState st
      (by intro kv hkv; exact absurd hkv (List.not_mem_nil kv))
      (by intro t ht; exact absurd ht (List.not_mem_nil t)) henum
    have hrun := runDeleteTasks_report reg st.tasks st.map st.ab ht1 hm1
    cases hr : runDeleteTasks reg st.tasks st.map st.ab with
    | mk m2 ab2 =>
      rw [hr] at h hrun
      cases ab2 with
      | some e => cases h
      | none =>
        cases h
        exact hrun

theorem deletePackageVersionsM_find_error (reg : Reg) (records : List PkgRecord)
    (tagsToDelete : List String) (delOrph : Bool)
    (delOk : Option String → Bool) (e : Err)
    (h : findOrphanOrTagged reg tagsToDelete records = .error e) :
    deletePackageVersionsM reg records tagsToDelete delOrph delOk
      = ([], .error e) := by
  rw [deletePackageVersionsM, h]

theorem deletePackageVersionsM_find_check (reg : Reg) (records : List PkgRecord)
    (tagsToDelete : List String) (delOrph : Bool)
    (delOk : Option String → Bool) (m : AList (Option String) PkgInfo)
    (h : findOrphanOrTagged reg tagsToDelete records = .ok m)
    (hck : tagsToDelete = [] ∧ targetCount m ≠ 0) :
    deletePackageVersionsM reg records tagsToDelete delOrph delOk
      = ([Ev.stats], .error (Err.noTagButTargets (targetCount m))) := by
  rw [deletePackageVersionsM, h]
  show (if tagsToDelete = [] ∧ targetCount m ≠ 0 then
      ([Ev.stats], .error (Err.noTagButTargets (targetCount m)))
    else (Ev.stats :: (deleteLoop delOrph delOk m).1, (deleteLoop delOrph delOk m).2))
    = ([Ev.stats], .error (Err.noTagButTargets (targetCount m)))
  rw [if_pos hck]

theorem deletePackageVersionsM_find_ok (reg : Reg) (records : List PkgRecord)
    (tagsToDelete : List String) (delOrph : Bool)
    (delOk : Option String → Bool) (m : AList (Option String) PkgInfo)
    (h : findOrphanOrTagged reg tagsToDelete records = .ok m)
    (hck : ¬ (tagsToDelete = [] ∧ targetCount m ≠ 0)) :
    deletePackageVersionsM reg records tagsToDelete delOrph delOk
      = (Ev.stats :: (deleteLoop delOrph delOk m).1,
         (deleteLoop delOrph delOk m).2) := by
  rw [deletePackageVersionsM, h]
  show (if tagsToDelete = [] ∧ targetCount m ≠ 0 then
      ([Ev.stats], .error (Err.noTagButTargets (targetCount m)))
    else (Ev.stats :: (deleteLoop delOrph delOk m).1, (deleteLoop delOrph delOk m).2))
    = (Ev.stats :: (deleteLoop delOrph delOk m).1, (deleteLoop delOrph delOk m).2)
  rw [if_neg hck]

theorem deleteLoop_report (delOk : Option String → Bool)
    (entries : List (Option String × PkgInfo))
    (hmap : ∀ kv ∈ entries, kv.2.belongsToTagsToDelete = false)
    (d : Option String) :
    Ev.delAttempt d ∉ (deleteLoop false delOk entries).1 := by
  induction entries with
  | nil => simp [deleteLoop]
  | cons kv rest ih =>
    obtain ⟨d0, i0⟩ := kv
    have hb : i0.belongsToTagsToDelete = false :=
      hmap (d0, i0) (List.mem_cons_self _ _)
    have ihr := ih (fun kv hkv => hmap kv (List.mem_cons_of_mem _ hkv))
    by_cases hc0 : i0.isOrphan = true ∧ (i0.indexDigest ≠ "" ∨ i0.tags ≠ [])
    · rw [deleteLoop_cons_bad false delOk d0 i0 rest hc0]
      exact List.not_mem_nil _
    · cases hi0 : i0.id with
      | none =>
        rw [deleteLoop_cons_noid false delOk d0 i0 rest hc0 hi0]
        exact ihr
      | some k0 =>
        have he : ¬ (i0.belongsToTagsToDelete = true
            ∨ (false = true ∧ i0.isOrphan = true)) := by
          rintro (h1 | ⟨h2, _⟩)
          · rw [hb] at h1
            exact Bool.false_ne_true h1
          · exact Bool.false_ne_true h2
        rw [deleteLoop_cons_skip false delOk d0 i0 rest k0 hc0 hi0 he]
        exact ihr

/-- Claim C8: list mode and report mode issue zero deletion calls for
every input, and in delete mode, whenever any deletion call occurs in the
event trace, the self-consistency stats report is the first event — it is
printed before the first deletion call. -/
theorem modes_mutation_discipline :
    (∀ (reg : Reg) (records : List PkgRecord) (tagsFilter : List String)
        (d : Option String), Ev.delAttempt d ∉ runListCmd reg records tagsFilter)
    ∧ (∀ (reg : Reg) (records : List PkgRecord) (delOk : Option String → Bool)
        (d : Option String), Ev.delAttempt d ∉ (runReportCmd reg records delOk).1)
    ∧ (∀ (reg : Reg) (records : List PkgRecord) (tagsToDelete : List String)
        (delOrph : Bool) (delOk : Option String → Bool) (d : Option String),
        Ev.delAttempt d ∈
          (deletePackageVersionsM reg records tagsToDelete delOrph delOk).1 →
        ((deletePackageVersionsM reg records tagsToDelete delOrph delOk).1).head?
          = some Ev.stats) := by
  refine ⟨?_, ?_, ?_⟩
  · intro reg records tagsFilter d
    exact printLoop_no_delete tagsFilter
      (enumList records initLState).tagGroups _ d
  · intro reg records delOk d
    rw [runReportCmd]
    cases hfind : findOrphanOrTagged reg [] records with
    | error e =>
      rw [deletePackageVersionsM_find_error reg records [] false delOk e hfind]
      exact List.not_mem_nil _
    | ok m =>
      by_cases hck : ([] : List String) = [] ∧ targetCount m ≠ 0
      · rw [deletePackageVersionsM_find_check reg records [] false delOk m hfind hck]
        intro hmem
        exact Ev.noConfusion (List.mem_singleton.mp hmem)
      · rw [deletePackageVersionsM_find_ok reg records [] false delOk m hfind hck]
        intro hmem
        rcases List.mem_cons.mp hmem with he | hm
        · exact Ev.noConfusion he
        · exact deleteLoop_report delOk m
            (findOrphanOrTagged_report reg records m hfind) d hm
  · intro reg records tagsToDelete delOrph delOk d
    cases hfind : findOrphanOrTagged reg tagsToDelete records with
    | error e =>
      rw [deletePackageVersionsM_find_error reg records tagsToDelete delOrph
        delOk e hfind]
      intro hmem
      exact absurd hmem (List.not_mem_nil _)
    | ok m =>
      by_cases hck : tagsToDelete = [] ∧ targetCount m ≠ 0
      · rw [deletePackageVersionsM_find_check reg records tagsToDelete delOrph
          delOk m hfind hck]
        intro hmem
        exact absurd (List.mem_singleton.mp hmem) (fun he => Ev.noConfusion he)
      · rw [deletePackageVersionsM_find_ok reg records tagsToDelete delOrph
          delOk m hfind hck]
        intro hmem
        rfl

/-- Witness for C8 at a delete-mode run that performs a deletion: the
trace starts with the stats report. -/
theorem modes_mutation_discipline_witness :
    Ev.delAttempt (some "d0") ∈
      (deletePackageVersionsM (fun _ => .ok [some "d1"]) [⟨1, "d0", ["v1"]⟩]
        ["v1"] false (fun _ => true)).1
    ∧ ((deletePackageVersionsM (fun _ => .ok [some "d1"]) [⟨1, "d0", ["v1"]⟩]
        ["v1"] false (fun _ => true)).1).head? = some Ev.stats :=
  ⟨by decide,
   modes_mutation_discipline.2.2 (fun _ => .ok [some "d1"]) [⟨1, "d0", ["v1"]⟩]
     ["v1"] false (fun _ => true) (some "d0") (by decide)⟩

end ManagePackages
